import Mathlib

/-!
Verification of the feature-graph core of cargo-features-manager.

The development embeds `src/crates.rs` (the `Crate` struct with its
enable/disable cascade), `src/document.rs` (`write_dep`, the per-dependency
serializer) and the per-dependency trial/restore loop of `src/prune.rs`.

Rust's in-place mutation becomes explicit state passing; the recursive
cascades `enable_feature_usage` / `disable_feature_usage` are embedded as a
single fuel-indexed function `cascadeGas` (the fuel `offCount b c + 1` is
proved sufficient: past that bound the result no longer depends on the fuel,
which is the termination argument of the Rust recursion).  A panic of the
Rust code (`.expect(...)` on an unknown feature name) is modelled as
`Except.error` carrying the panic message.
-/

set_option maxHeartbeats 1000000

deriving instance DecidableEq for Except

namespace CargoFeaturesManager

/-- Ordered feature list, mirroring `features: Vec<(String, bool)>`. -/
abbrev FeatList := List (String × Bool)

/-- Implication map, mirroring `features_map: HashMap<String, Vec<String>>`
as an association list. -/
abbrev FeatMap := List (String × List String)

/-- First flag stored under a name; mirrors `get_index` + `features.get`. -/
def lookupFlag : FeatList → String → Option Bool
  | [], _ => none
  | p :: rest, n => if p.1 = n then some p.2 else lookupFlag rest n

/-- Set the flag at the first occurrence of a name; mirrors
`features.get_mut(index)` followed by `data.1 = b`. -/
def setFlag : FeatList → String → Bool → FeatList
  | [], _, _ => []
  | p :: rest, n, b => if p.1 = n then (p.1, b) :: rest else p :: setFlag rest n b

/-- Association-list lookup on the implication map. -/
def lookupList : FeatMap → String → Option (List String)
  | [], _ => none
  | p :: rest, n => if p.1 = n then some p.2 else lookupList rest n

/-- The `implies` list of a feature; `[]` when the map has no entry, matching
the `contains_key` early return in `enable_feature_usage`. -/
def subsOfMap (m : FeatMap) (n : String) : List String := (lookupList m n).getD []

/-- Mirrors `get_dependent_features`: all map keys whose list contains `n`. -/
def dependentsOfMap (m : FeatMap) (n : String) : List String :=
  (m.filter (fun p => p.2.contains n)).map Prod.fst

/-- Number of entries whose flag differs from `b`; the cascade's termination
measure (each productive step moves one flag to `b`). -/
def countOff (b : Bool) (fs : FeatList) : Nat := (fs.filter (fun p => p.2 != b)).length

/-- The fields of `crates_index::Dependency` read by `Crate::new`. -/
structure CrateDependency where
  name : String
  is_optional : Bool
deriving DecidableEq, Repr

/-- The fields of `crates_index::Version` read by `Crate::new`. -/
structure Version where
  name : String
  vers : String
  features : FeatMap
  dependencies : List CrateDependency
deriving DecidableEq, Repr

/-- The `Crate` struct of `src/crates.rs`. -/
structure Crate where
  version : Version
  features_map : FeatMap
  features : FeatList
  default_features : List String
deriving DecidableEq, Repr

/-- Names of all feature nodes, in display order. -/
def namesOf (c : Crate) : List String := c.features.map Prod.fst

/-- The enabled flag of a feature, `none` when the name is absent. -/
def flagOf (c : Crate) (n : String) : Option Bool := lookupFlag c.features n

/-- State after `data.1 = b` on the entry of `n`. -/
def flipCrate (c : Crate) (n : String) (b : Bool) : Crate :=
  { c with features := setFlag c.features n b }

/-- Termination measure lifted to crates. -/
def offCount (b : Bool) (c : Crate) : Nat := countOff b c.features

/-- Fuel-indexed cascade shared by `enable_feature_usage` (adjacency
`subsOfMap`, target flag `true`) and `disable_feature_usage` (adjacency
`dependentsOfMap`, target flag `false`).  Each level mirrors the Rust body:
panic on an unknown name, early return when the flag already has the target
value, otherwise set the flag and recurse over the adjacent features. -/
def cascadeGas (adj : FeatMap → String → List String) (b : Bool) :
    Nat → Crate → String → Except String Crate
  | 0, c, _ => Except.ok c
  | Nat.succ g, c, n =>
    match lookupFlag c.features n with
    | none => Except.error ("feature named " ++ n ++ " not found")
    | some f =>
      if f = b then Except.ok c
      else
        List.foldlM (fun acc s => cascadeGas adj b g acc s) (flipCrate c n b)
          (adj (flipCrate c n b).features_map n)

/-- `enable_feature_usage` of `src/crates.rs`: mark enabled, then recursively
enable every feature of the `implies` list.  Fuel `offCount true c + 1` is
proved sufficient below. -/
def enable_feature_usage (c : Crate) (n : String) : Except String Crate :=
  cascadeGas subsOfMap true (offCount true c + 1) c n

/-- `disable_feature_usage` of `src/crates.rs`: mark disabled, then
recursively disable every feature whose `implies` list contains the name. -/
def disable_feature_usage (c : Crate) (n : String) : Except String Crate :=
  cascadeGas dependentsOfMap false (offCount false c + 1) c n

/-- `get_all_enabled_features`: names of the currently enabled features. -/
def get_all_enabled_features (c : Crate) : List String :=
  (c.features.filter (fun p => p.2)).map Prod.fst

/-- `uses_default`: every default feature is currently enabled. -/
def uses_default (c : Crate) : Bool :=
  c.default_features.all (fun n => (get_all_enabled_features c).contains n)

/-- `get_enabled_features`: enabled names, with default names removed exactly
when `uses_default` holds. -/
def get_enabled_features (c : Crate) : List String :=
  let default_features := if uses_default c then c.default_features else []
  ((c.features.filter (fun p => p.2)).map Prod.fst).filter
    (fun n => !default_features.contains n)

/-- `get_version`. -/
def get_version (c : Crate) : String := c.version.vers

/-- `get_name`. -/
def get_name (c : Crate) : String := c.version.name

/-- The serialized shape `write_dep` produces for one dependency entry:
either a bare version string or an inline table holding the version, the
feature array, and an optional explicit `default-features` flag. -/
inductive DepToml where
  | bare (version : String)
  | table (version : String) (features : List String) (default_flag : Option Bool)
deriving DecidableEq, Repr

/-- `write_dep` of `src/document.rs`, restricted to the value written for the
dependency's key. -/
def write_dep (c : Crate) : DepToml :=
  if !uses_default c || !(get_enabled_features c).isEmpty then
    DepToml.table (get_version c) (get_enabled_features c)
      (if uses_default c then none else some false)
  else
    DepToml.bare (get_version c)

/-- The `features_map` built in `Crate::new`: skip the `default` entry and
drop cross-package references (containing `:` or `/`) from each list. -/
def buildFeaturesMap (vf : FeatMap) : FeatMap :=
  (vf.filter (fun p => p.1 != "default")).map
    (fun p => (p.1, p.2.filter (fun s => !s.data.contains ':' && !s.data.contains '/')))

/-- The raw node list of `Crate::new` before sorting: each map key followed
by its list members, then every optional dependency, all disabled. -/
def featuresSeed (fm : FeatMap) (deps : List CrateDependency) : FeatList :=
  (fm.flatMap (fun p => (p.1, false) :: p.2.map (fun s => (s, false)))) ++
  ((deps.filter (fun d => d.is_optional)).map (fun d => (d.name, false)))

/-- The comparator of `Crate::new`: default features first, then by name. -/
def featOrd (defaults : List String) (a b : String × Bool) : Ordering :=
  if defaults.contains a.1 && !defaults.contains b.1 then Ordering.lt
  else if defaults.contains b.1 && !defaults.contains a.1 then Ordering.gt
  else compare a.1 b.1

/-- Stable insertion into a list sorted by `featOrd`. -/
def insertFeat (defaults : List String) (x : String × Bool) : FeatList → FeatList
  | [] => [x]
  | y :: ys =>
    if featOrd defaults x y = Ordering.lt then x :: y :: ys
    else y :: insertFeat defaults x ys

/-- The `sort_by` call of `Crate::new` (insertion sort; ties are only between
identical pairs, so any stable order agrees with Rust's stable sort). -/
def sortFeat (defaults : List String) (l : FeatList) : FeatList :=
  l.foldl (fun acc x => insertFeat defaults x acc) []

/-- `Vec::dedup`: collapse consecutive duplicates. -/
def dedupAdj : FeatList → FeatList
  | [] => []
  | [x] => [x]
  | x :: y :: rest =>
    if x = y then dedupAdj (y :: rest) else x :: dedupAdj (y :: rest)

/-- One step of the initial-enablement loop of `Crate::new`: enable the
feature when the default profile requests it or it was explicitly requested.
The error arm of the match is unreachable: every iterated name is a node. -/
def crateNewStep (enabled_features : List String) (has_default : Bool)
    (default_features : List String) (c : Crate) (p : String × Bool) : Crate :=
  if (has_default && default_features.contains p.1)
      || enabled_features.contains p.1 then
    match enable_feature_usage c p.1 with
    | Except.ok c2 => c2
    | Except.error _ => c
  else c

/-- `Crate::new`: build the map, default list and node list, then apply the
initial enablement through the same cascade as runtime toggles. -/
def Crate.new (version : Version) (enabled_features : List String)
    (has_default : Bool) : Crate :=
  let features_map := buildFeaturesMap version.features
  let default_features := (lookupList version.features "default").getD []
  let feats := dedupAdj (sortFeat default_features
    (featuresSeed features_map version.dependencies))
  let base : Crate :=
    { version := version, features_map := features_map, features := feats,
      default_features := default_features }
  feats.foldl (crateNewStep enabled_features has_default default_features) base

/-- The candidate list of `prune_package`: enabled features of the dependency
that are not on its ignore list, in display order. -/
def candidatesOf (c : Crate) (ignored : List String) : List String :=
  ((c.features.filter (fun p => p.2 && !ignored.contains p.1)).map Prod.fst)

/-- One trial of `prune_package`: disable the candidate (with its cascade),
then the restore loop re-enables every candidate. -/
def pruneTrial (cands : List String) (c : Crate) (f : String) :
    Except String Crate :=
  (disable_feature_usage c f).bind
    (fun d => List.foldlM (fun acc g => enable_feature_usage acc g) d cands)

/-- The whole trial loop of `prune_package` over the candidate list computed
once from the baseline; the oracle outcome does not touch the graph, so it
does not appear. -/
def pruneTrials (cands : List String) (c : Crate) : Except String Crate :=
  List.foldlM (fun acc f => pruneTrial cands acc f) c cands

/-- The dependency entry persisted last by a dry run: the trials run (each
one writes after its disable and after its restore), then the dry-run branch
skips the final combined disable, so the file ends holding the serialization
of the state left by the last restore. -/
def dryRunFinalToml (c : Crate) (ignored : List String) :
    Except String DepToml :=
  (pruneTrials (candidatesOf c ignored) c).map write_dep

/-- The data-model invariants of a feature graph (spec section 3): node names
are unique (a `FeatureGraph` is a mapping, duplicates collapse), map keys are
unique (`HashMap`), and every locally-referenced name in the map exists as a
node. -/
def WFCrate (c : Crate) : Prop :=
  (namesOf c).Nodup ∧ (c.features_map.map Prod.fst).Nodup ∧
  ∀ p ∈ c.features_map, p.1 ∈ namesOf c ∧ ∀ s ∈ p.2, s ∈ namesOf c

/-- The enabled-closure invariant of the data model: an enabled feature has
every feature of its `implies` list enabled. -/
def Consistent (c : Crate) : Prop :=
  ∀ p ∈ c.features, p.2 = true →
    ∀ y ∈ subsOfMap c.features_map p.1, lookupFlag c.features y = some true

instance (c : Crate) : Decidable (WFCrate c) := by
  unfold WFCrate; infer_instance

instance (c : Crate) : Decidable (Consistent c) := by
  unfold Consistent; infer_instance

/-- Plain reachability along `implies` edges. -/
inductive Reach (m : FeatMap) : String → String → Prop
  | refl (n : String) : Reach m n n
  | head {a b : String} (s : String) : s ∈ subsOfMap m a → Reach m s b → Reach m a b

/-- Reachability along `adj` edges through features whose flag is still the
opposite of the cascade's target `b`: exactly the features a cascade started
at the first argument flips. -/
inductive CReach (adj : FeatMap → String → List String) (b : Bool) (c : Crate) :
    String → String → Prop
  | refl (n : String) : lookupFlag c.features n = some (!b) → CReach adj b c n n
  | head {a m : String} (s : String) : lookupFlag c.features a = some (!b) →
      s ∈ adj c.features_map a → CReach adj b c s m → CReach adj b c a m

/-- What any number of flag writes toward `b` can do to a feature list: each
entry keeps its name and either keeps its flag or has it set to `b`. -/
def FlagStep (b : Bool) : FeatList → FeatList → Prop :=
  List.Forall₂ (fun p q => p.1 = q.1 ∧ (q.2 = p.2 ∨ q.2 = b))

/-- What any number of cascade steps toward flag `b` can do to a crate:
identity outside `features`, and `FlagStep b` on the feature list. -/
def StepRel (b : Bool) (c d : Crate) : Prop :=
  d.version = c.version ∧ d.features_map = c.features_map ∧
  d.default_features = c.default_features ∧ FlagStep b c.features d.features

/-- Every target of an `adj` edge is a node; holds for both adjacencies of a
well-formed crate. -/
def AdjOk (adj : FeatMap → String → List String) (c : Crate) : Prop :=
  ∀ x y, y ∈ adj c.features_map x → y ∈ namesOf c

/-- A dependency used by the concrete counterexamples. -/
def dummyVersion : Version :=
  { name := "D", vers := "1.0.0", features := [], dependencies := [] }

/-- Scenario A of the spec: features `default → [a]`, `a → [b]`, `c`;
default list `[a]`; the default profile requested. -/
def scenarioAVersion : Version :=
  { name := "D", vers := "1.0.0",
    features := [("default", ["a"]), ("a", ["b"]), ("c", [])],
    dependencies := [] }

/-- The Scenario A dependency as `Crate::new` builds it (enabled = {a, b}). -/
def scenarioACrate : Crate := Crate.new scenarioAVersion [] true

/-- Scenario A after `Enable("c")`. -/
def scenarioAStep1 : Except String Crate := enable_feature_usage scenarioACrate "c"

/-- Scenario A after `Enable("c")` then `Disable("a")`. -/
def scenarioAStep2 : Except String Crate :=
  scenarioAStep1.bind (fun d => disable_feature_usage d "a")

/-- Round-trip counterexample graph: `f` implies `g`, both disabled, `f` has
no dependents. -/
def c5crate : Crate :=
  { version := dummyVersion, features_map := [("f", ["g"])],
    features := [("f", false), ("g", false)], default_features := [] }

/-- Pruner counterexample dependency: `g` implies `f`, both enabled; with `g`
ignore-listed the only candidate is `f`, but disabling `f` cascades to `g`. -/
def c1crate : Crate :=
  { version := dummyVersion, features_map := [("g", ["f"])],
    features := [("f", true), ("g", true)], default_features := [] }

/-- A version whose only feature-shaped datum is an optional dependency
called `default`. -/
def c10version : Version :=
  { name := "D", vers := "1.0.0", features := [],
    dependencies := [{ name := "default", is_optional := true }] }

/-- A version in which the implication list of feature `x` mentions
`default`. -/
def c10witnessVersion : Version :=
  { name := "D", vers := "1.0.0", features := [("x", ["default"])],
    dependencies := [] }

/-- Witness graph for the amended round trip: `f` implies `g`, `f` disabled,
`g` enabled, `f` without dependents. -/
def c5witnessCrate : Crate :=
  { version := dummyVersion, features_map := [("f", ["g"])],
    features := [("f", false), ("g", true)], default_features := [] }

/-- A well-formed two-node graph used by witnesses: `a` implies `b`. -/
def witnessCrate : Crate :=
  { version := dummyVersion, features_map := [("a", ["b"])],
    features := [("a", false), ("b", false)], default_features := [] }

/-- A cyclic graph (a and b imply each other) used by the termination
witness. -/
def cyclicCrate : Crate :=
  { version := dummyVersion, features_map := [("a", ["b"]), ("b", ["a"])],
    features := [("a", false), ("b", false)], default_features := [] }

/-! ### Feature-list lemmas -/

theorem lookupFlag_isSome {fs : FeatList} {n : String} :
    (lookupFlag fs n).isSome = true ↔ n ∈ fs.map Prod.fst := by
  induction fs with
  | nil => simp [lookupFlag]
  | cons p rest ih =>
      rw [lookupFlag, List.map_cons, List.mem_cons]
      by_cases h : p.1 = n
      · simp [h]
      · simp only [if_neg h, ih]
        constructor
        · exact Or.inr
        · intro hm
          rcases hm with hm | hm
          · exact absurd hm.symm h
          · exact hm

theorem lookupFlag_eq_none {fs : FeatList} {n : String} :
    lookupFlag fs n = none ↔ n ∉ fs.map Prod.fst := by
  rw [← lookupFlag_isSome]
  cases lookupFlag fs n <;> simp

theorem mem_of_lookupFlag {fs : FeatList} {n : String} {b : Bool}
    (h : lookupFlag fs n = some b) : n ∈ fs.map Prod.fst := by
  by_contra hn
  rw [lookupFlag_eq_none.mpr hn] at h
  exact Option.noConfusion h

theorem lookupFlag_mem {fs : FeatList} {n : String} {b : Bool}
    (h : lookupFlag fs n = some b) : (n, b) ∈ fs := by
  induction fs with
  | nil => exact absurd h (by simp [lookupFlag])
  | cons p rest ih =>
      rw [lookupFlag] at h
      split at h
      · next heq =>
          cases h
          exact heq ▸ List.mem_cons_self _ _
      · exact List.mem_cons_of_mem _ (ih h)

theorem mem_lookupFlag {fs : FeatList} {n : String} (h : n ∈ fs.map Prod.fst) :
    ∃ b, lookupFlag fs n = some b := by
  cases hfl : lookupFlag fs n with
  | none => exact absurd h (lookupFlag_eq_none.mp hfl)
  | some b => exact ⟨b, rfl⟩

theorem setFlag_names (fs : FeatList) (n : String) (b : Bool) :
    (setFlag fs n b).map Prod.fst = fs.map Prod.fst := by
  induction fs with
  | nil => rfl
  | cons p rest ih =>
      rw [setFlag]
      split
      · rfl
      · simpa using ih

theorem lookupFlag_setFlag_self {fs : FeatList} {n : String} (b : Bool)
    (h : n ∈ fs.map Prod.fst) : lookupFlag (setFlag fs n b) n = some b := by
  induction fs with
  | nil => simp at h
  | cons p rest ih =>
      rw [setFlag]
      split
      · next heq => simp [lookupFlag, heq]
      · next hne =>
          rw [lookupFlag, if_neg hne]
          rw [List.map_cons, List.mem_cons] at h
          rcases h with h | h
          · exact absurd h.symm hne
          · exact ih h

theorem lookupFlag_setFlag_ne (fs : FeatList) {m n : String} (b : Bool)
    (h : m ≠ n) : lookupFlag (setFlag fs n b) m = lookupFlag fs m := by
  induction fs with
  | nil => rfl
  | cons p rest ih =>
      rw [setFlag]
      split
      · next heq =>
          have hpm : ¬p.1 = m := fun hx => h (hx ▸ heq)
          simp [lookupFlag, hpm]
      · by_cases hpm : p.1 = m
        · simp [lookupFlag, hpm]
        · simp [lookupFlag, hpm, ih]

theorem setFlag_setFlag {fs : FeatList} {n : String} {b : Bool}
    (h : lookupFlag fs n = some b) (b2 : Bool) :
    setFlag (setFlag fs n b2) n b = fs := by
  induction fs with
  | nil => rfl
  | cons p rest ih =>
      obtain ⟨pn, pb⟩ := p
      rw [lookupFlag] at h
      by_cases heq : pn = n
      · rw [if_pos heq] at h
        obtain rfl : pb = b := Option.some.inj h
        rw [setFlag, if_pos heq, setFlag, if_pos heq]
      · rw [if_neg heq] at h
        rw [setFlag, if_neg heq, setFlag, if_neg heq, ih h]

theorem countOff_setFlag_lt {fs : FeatList} {n : String} {b : Bool}
    (h : lookupFlag fs n = some (!b)) :
    countOff b (setFlag fs n b) < countOff b fs := by
  induction fs with
  | nil => exact absurd h (by simp [lookupFlag])
  | cons p rest ih =>
      obtain ⟨pn, pb⟩ := p
      rw [lookupFlag] at h
      by_cases heq : pn = n
      · rw [if_pos heq] at h
        obtain rfl : pb = !b := Option.some.inj h
        rw [setFlag, if_pos heq]
        simp only [countOff, List.filter_cons]
        simp [Nat.lt_succ_of_le]
      · rw [if_neg heq] at h
        rw [setFlag, if_neg heq]
        have hih := ih h
        simp only [countOff] at hih ⊢
        rw [List.filter_cons, List.filter_cons]
        cases hpb : (pb != b)
        · simpa [hpb] using hih
        · simp only [hpb, if_pos, List.length_cons]
          omega

theorem countOff_pos {fs : FeatList} {n : String} {b : Bool}
    (h : lookupFlag fs n = some (!b)) : 1 ≤ countOff b fs := by
  have hmem := lookupFlag_mem h
  have : (n, !b) ∈ fs.filter (fun p => p.2 != b) := by
    simp [List.mem_filter, hmem]
  have := List.length_pos.mpr (List.ne_nil_of_mem this)
  simpa [countOff] using this

/-! ### FlagStep and StepRel lemmas -/

theorem FlagStep.reflexive (b : Bool) (fs : FeatList) : FlagStep b fs fs := by
  induction fs with
  | nil => exact List.Forall₂.nil
  | cons p rest ih => exact List.Forall₂.cons ⟨rfl, Or.inl rfl⟩ ih

theorem FlagStep.transitive {b : Bool} {f1 f2 f3 : FeatList}
    (h1 : FlagStep b f1 f2) (h2 : FlagStep b f2 f3) : FlagStep b f1 f3 := by
  induction h1 generalizing f3 with
  | nil => cases h2; exact List.Forall₂.nil
  | cons hpq _ ih =>
      cases h2 with
      | cons hqr h2rest =>
          refine List.Forall₂.cons ⟨hpq.1.trans hqr.1, ?_⟩ (ih h2rest)
          rcases hqr.2 with h | h
          · rw [h]; exact hpq.2
          · exact Or.inr h

theorem FlagStep.names {b : Bool} {f1 f2 : FeatList} (h : FlagStep b f1 f2) :
    f1.map Prod.fst = f2.map Prod.fst := by
  induction h with
  | nil => rfl
  | cons hpq _ ih => simp [hpq.1, ih]

theorem FlagStep.setFlag (b : Bool) (fs : FeatList) (n : String) :
    FlagStep b fs (setFlag fs n b) := by
  induction fs with
  | nil => exact List.Forall₂.nil
  | cons p rest ih =>
      rw [CargoFeaturesManager.setFlag]
      split
      · exact List.Forall₂.cons ⟨rfl, Or.inr rfl⟩ (FlagStep.reflexive b rest)
      · exact List.Forall₂.cons ⟨rfl, Or.inl rfl⟩ ih

theorem FlagStep.lookup_b {b : Bool} {f1 f2 : FeatList} (h : FlagStep b f1 f2)
    {m : String} (hm : lookupFlag f1 m = some b) : lookupFlag f2 m = some b := by
  induction h with
  | nil => exact hm
  | @cons p q l1 l2 hpq htail ih =>
      rw [lookupFlag] at hm ⊢
      by_cases hqm : q.1 = m
      · rw [if_pos hqm]
        rw [if_pos (hpq.1.trans hqm)] at hm
        have hpb : p.2 = b := Option.some.inj hm
        rcases hpq.2 with h2 | h2
        · rw [h2, hpb]
        · rw [h2]
      · rw [if_neg hqm]
        rw [if_neg (fun hx => hqm (hpq.1.symm.trans hx))] at hm
        exact ih hm

theorem FlagStep.lookup_nb {b : Bool} {f1 f2 : FeatList} (h : FlagStep b f1 f2)
    {m : String} {x : Bool} (hx : x ≠ b)
    (hm : lookupFlag f2 m = some x) : lookupFlag f1 m = some x := by
  induction h with
  | nil => exact hm
  | @cons p q l1 l2 hpq htail ih =>
      rw [lookupFlag] at hm ⊢
      by_cases hpm : p.1 = m
      · rw [if_pos hpm]
        rw [if_pos (hpq.1.symm.trans hpm)] at hm
        have hqx : q.2 = x := Option.some.inj hm
        rcases hpq.2 with h2 | h2
        · rw [h2.symm.trans hqx]
        · exact absurd (hqx.symm.trans h2) hx
      · rw [if_neg hpm]
        rw [if_neg (fun hx2 => hpm (hpq.1.trans hx2))] at hm
        exact ih hm

theorem FlagStep.countOff_le {b : Bool} {f1 f2 : FeatList}
    (h : FlagStep b f1 f2) : countOff b f2 ≤ countOff b f1 := by
  induction h with
  | nil => exact Nat.le_refl _
  | @cons p q l1 l2 hpq htail ih =>
      simp only [countOff, List.filter_cons] at ih ⊢
      rcases hpq.2 with h2 | h2
      · rw [h2]
        cases hpb : (p.2 != b) <;> simp [hpb] <;> omega
      · have h2f : (q.2 != b) = false := by simp [h2]
        simp only [h2f, Bool.false_eq_true, if_false]
        cases hpb : (p.2 != b) <;> simp [hpb] <;> omega

theorem StepRel.refl (b : Bool) (c : Crate) : StepRel b c c :=
  ⟨rfl, rfl, rfl, FlagStep.reflexive b c.features⟩

theorem StepRel.trans {b : Bool} {c d e : Crate}
    (h1 : StepRel b c d) (h2 : StepRel b d e) : StepRel b c e :=
  ⟨h2.1.trans h1.1, h2.2.1.trans h1.2.1, h2.2.2.1.trans h1.2.2.1,
    FlagStep.transitive h1.2.2.2 h2.2.2.2⟩

theorem StepRel.flip (b : Bool) (c : Crate) (n : String) :
    StepRel b c (flipCrate c n b) :=
  ⟨rfl, rfl, rfl, FlagStep.setFlag b c.features n⟩

theorem StepRel.namesOf {b : Bool} {c d : Crate} (h : StepRel b c d) :
    namesOf d = namesOf c :=
  (h.2.2.2.names).symm

theorem StepRel.flag_b {b : Bool} {c d : Crate} (h : StepRel b c d)
    {m : String} (hm : flagOf c m = some b) : flagOf d m = some b :=
  h.2.2.2.lookup_b hm

theorem StepRel.flag_nb {b : Bool} {c d : Crate} (h : StepRel b c d)
    {m : String} {x : Bool} (hx : x ≠ b) (hm : flagOf d m = some x) :
    flagOf c m = some x :=
  h.2.2.2.lookup_nb hx hm

theorem StepRel.offCount_le {b : Bool} {c d : Crate} (h : StepRel b c d) :
    offCount b d ≤ offCount b c :=
  h.2.2.2.countOff_le

/-! ### foldlM helpers over `Except String Crate` -/

theorem except_bind_ok {α β : Type} (a : α) (f : α → Except String β) :
    (Except.ok a : Except String α).bind f = f a := rfl

theorem foldlM_except_nil (f : Crate → String → Except String Crate) (c : Crate) :
    List.foldlM f c [] = Except.ok c := rfl

theorem foldlM_except_cons (f : Crate → String → Except String Crate) (c : Crate)
    (x : String) (l : List String) :
    List.foldlM f c (x :: l) = (f c x).bind (fun d => List.foldlM f d l) := by
  cases h : f c x with
  | error e => rw [List.foldlM_cons, h]; rfl
  | ok c1 => rw [List.foldlM_cons, h]; rfl

theorem foldlM_inv (f : Crate → String → Except String Crate) (P : Crate → Prop)
    (l : List String) :
    ∀ (c d : Crate), P c →
      (∀ a x d2, x ∈ l → P a → f a x = Except.ok d2 → P d2) →
      List.foldlM f c l = Except.ok d → P d := by
  induction l with
  | nil =>
      intro c d hP _ h
      rw [foldlM_except_nil] at h
      cases h
      exact hP
  | cons x xs ih =>
      intro c d hP hstep h
      rw [foldlM_except_cons] at h
      cases hfx : f c x with
      | error e => rw [hfx] at h; exact absurd h (by simp [Except.bind])
      | ok c1 =>
          rw [hfx, except_bind_ok] at h
          exact ih c1 d (hstep c x c1 (List.mem_cons_self x xs) hP hfx)
            (fun a y d2 hy => hstep a y d2 (List.mem_cons_of_mem x hy)) h

theorem foldlM_total (f : Crate → String → Except String Crate) (P : Crate → Prop)
    (l : List String) :
    ∀ (c : Crate), P c →
      (∀ a x, x ∈ l → P a → ∃ d, f a x = Except.ok d ∧ P d) →
      ∃ d, List.foldlM f c l = Except.ok d ∧ P d := by
  induction l with
  | nil => intro c hP _; exact ⟨c, foldlM_except_nil f c, hP⟩
  | cons x xs ih =>
      intro c hP hstep
      obtain ⟨c1, hc1, hPc1⟩ := hstep c x (List.mem_cons_self x xs) hP
      obtain ⟨d, hd, hPd⟩ := ih c1 hPc1
        (fun a y hy => hstep a y (List.mem_cons_of_mem x hy))
      exact ⟨d, by rw [foldlM_except_cons, hc1, except_bind_ok]; exact hd, hPd⟩

theorem foldlM_congr (f1 f2 : Crate → String → Except String Crate)
    (P : Crate → Prop) (l : List String) :
    ∀ (c : Crate), P c →
      (∀ a x, x ∈ l → P a → f1 a x = f2 a x) →
      (∀ a x d2, x ∈ l → P a → f1 a x = Except.ok d2 → P d2) →
      List.foldlM f1 c l = List.foldlM f2 c l := by
  induction l with
  | nil => intro c _ _ _; rfl
  | cons x xs ih =>
      intro c hP hagree hstep
      rw [foldlM_except_cons, foldlM_except_cons,
        ← hagree c x (List.mem_cons_self x xs) hP]
      cases hfx : f1 c x with
      | error e => simp [Except.bind]
      | ok c1 =>
          rw [except_bind_ok, except_bind_ok]
          exact ih c1 (hstep c x c1 (List.mem_cons_self x xs) hP hfx)
            (fun a y hy => hagree a y (List.mem_cons_of_mem x hy))
            (fun a y d2 hy => hstep a y d2 (List.mem_cons_of_mem x hy))

theorem foldlM_stepRel {b : Bool} (f : Crate → String → Except String Crate)
    (hstep : ∀ a x d, f a x = Except.ok d → StepRel b a d) :
    ∀ (l : List String) (c d : Crate),
      List.foldlM f c l = Except.ok d → StepRel b c d := by
  intro l c d h
  exact foldlM_inv f (fun a => StepRel b c a) l c d (StepRel.refl b c)
    (fun a x d2 _ hPa hfx => hPa.trans (hstep a x d2 hfx)) h

theorem foldlM_each {b : Bool} (f : Crate → String → Except String Crate)
    (hstep : ∀ a x d, f a x = Except.ok d → StepRel b a d) :
    ∀ (l : List String) (c d : Crate), List.foldlM f c l = Except.ok d →
      ∀ x ∈ l, ∃ a1 a2, StepRel b c a1 ∧ f a1 x = Except.ok a2 ∧ StepRel b a2 d := by
  intro l
  induction l with
  | nil => intro c d _ x hx; exact absurd hx (List.not_mem_nil x)
  | cons y ys ih =>
      intro c d h x hx
      rw [foldlM_except_cons] at h
      cases hfy : f c y with
      | error e => rw [hfy] at h; exact absurd h (by simp [Except.bind])
      | ok c1 =>
          rw [hfy, except_bind_ok] at h
          rcases List.mem_cons.mp hx with rfl | hx
          · exact ⟨c, c1, StepRel.refl b c, hfy,
              foldlM_stepRel f hstep ys c1 d h⟩
          · obtain ⟨a1, a2, h1, h2, h3⟩ := ih c1 d h x hx
            exact ⟨a1, a2, (hstep c y c1 hfy).trans h1, h2, h3⟩

/-! ### cascadeGas unfolding -/

theorem cascadeGas_zero (adj : FeatMap → String → List String) (b : Bool)
    (c : Crate) (n : String) : cascadeGas adj b 0 c n = Except.ok c := rfl

theorem cascadeGas_none {adj : FeatMap → String → List String} {b : Bool}
    {c : Crate} {n : String} (g : Nat) (h : lookupFlag c.features n = none) :
    cascadeGas adj b (g + 1) c n =
      Except.error ("feature named " ++ n ++ " not found") := by
  rw [cascadeGas, h]

theorem cascadeGas_already {adj : FeatMap → String → List String} {b : Bool}
    {c : Crate} {n : String} (g : Nat) (h : lookupFlag c.features n = some b) :
    cascadeGas adj b (g + 1) c n = Except.ok c := by
  rw [cascadeGas, h]
  simp

theorem cascadeGas_flip {adj : FeatMap → String → List String} {b : Bool}
    {c : Crate} {n : String} (g : Nat) (h : lookupFlag c.features n = some (!b)) :
    cascadeGas adj b (g + 1) c n =
      List.foldlM (fun acc s => cascadeGas adj b g acc s) (flipCrate c n b)
        (adj c.features_map n) := by
  rw [cascadeGas, h]
  simp only [Bool.not_eq_self, if_false]
  rfl

/-! ### Structural cascade lemmas -/

theorem flipCrate_features (c : Crate) (n : String) (b : Bool) :
    (flipCrate c n b).features = setFlag c.features n b := rfl

theorem cascade_stepRel {adj : FeatMap → String → List String} {b : Bool} :
    ∀ (g : Nat) (c : Crate) (n : String) (d : Crate),
      cascadeGas adj b g c n = Except.ok d → StepRel b c d := by
  intro g
  induction g with
  | zero =>
      intro c n d h
      rw [cascadeGas_zero] at h
      cases h
      exact StepRel.refl b c
  | succ g ih =>
      intro c n d h
      cases hfl : lookupFlag c.features n with
      | none => rw [cascadeGas_none g hfl] at h; exact Except.noConfusion h
      | some f =>
          by_cases hfb : f = b
          · rw [hfb] at hfl
            rw [cascadeGas_already g hfl] at h
            cases h
            exact StepRel.refl b c
          · have hf : f = !b := by cases f <;> cases b <;> simp_all
            rw [hf] at hfl
            rw [cascadeGas_flip g hfl] at h
            exact (StepRel.flip b c n).trans
              (foldlM_stepRel _ (fun a x d2 hx => ih a x d2 hx) _ _ _ h)

theorem cascade_offCount_le {adj : FeatMap → String → List String} {b : Bool}
    {g : Nat} {c : Crate} {n : String} {d : Crate}
    (h : cascadeGas adj b g c n = Except.ok d) : offCount b d ≤ offCount b c :=
  (cascade_stepRel g c n d h).offCount_le

theorem cascade_stable {adj : FeatMap → String → List String} {b : Bool} :
    ∀ (N : Nat) (c : Crate) (n : String) (g1 g2 : Nat), offCount b c ≤ N →
      offCount b c < g1 → offCount b c < g2 →
      cascadeGas adj b g1 c n = cascadeGas adj b g2 c n := by
  intro N
  induction N with
  | zero =>
      intro c n g1 g2 hN h1 h2
      obtain ⟨g1p, rfl⟩ : ∃ k, g1 = k + 1 := ⟨g1 - 1, by omega⟩
      obtain ⟨g2p, rfl⟩ : ∃ k, g2 = k + 1 := ⟨g2 - 1, by omega⟩
      cases hfl : lookupFlag c.features n with
      | none => rw [cascadeGas_none g1p hfl, cascadeGas_none g2p hfl]
      | some f =>
          have hfb : f = b := by
            by_contra hne
            have hf : f = !b := by cases f <;> cases b <;> simp_all
            rw [hf] at hfl
            have hpos := countOff_pos hfl
            have hoc : offCount b c = countOff b c.features := rfl
            omega
          rw [hfb] at hfl
          rw [cascadeGas_already g1p hfl, cascadeGas_already g2p hfl]
  | succ N ih =>
      intro c n g1 g2 hN h1 h2
      obtain ⟨g1p, rfl⟩ : ∃ k, g1 = k + 1 := ⟨g1 - 1, by omega⟩
      obtain ⟨g2p, rfl⟩ : ∃ k, g2 = k + 1 := ⟨g2 - 1, by omega⟩
      cases hfl : lookupFlag c.features n with
      | none => rw [cascadeGas_none g1p hfl, cascadeGas_none g2p hfl]
      | some f =>
          by_cases hfb : f = b
          · rw [hfb] at hfl
            rw [cascadeGas_already g1p hfl, cascadeGas_already g2p hfl]
          · have hf : f = !b := by cases f <;> cases b <;> simp_all
            rw [hf] at hfl
            rw [cascadeGas_flip g1p hfl, cascadeGas_flip g2p hfl]
            have hflip : offCount b (flipCrate c n b) < offCount b c :=
              countOff_setFlag_lt hfl
            refine foldlM_congr _ _ (fun a => offCount b a < offCount b c) _
              (flipCrate c n b) hflip ?_ ?_
            · intro a x _ hPa
              exact ih a x g1p g2p (by omega) (by omega) (by omega)
            · intro a x d2 _ hPa hfx
              exact Nat.lt_of_le_of_lt (cascade_offCount_le hfx) hPa

/-! ### CReach lemmas -/

theorem CReach.flag_start {adj : FeatMap → String → List String} {b : Bool}
    {c : Crate} {a m : String} (h : CReach adj b c a m) :
    lookupFlag c.features a = some (!b) := by
  cases h with
  | refl _ hf => exact hf
  | head s hf _ _ => exact hf

theorem CReach.anti {adj : FeatMap → String → List String} {b : Bool}
    {c d : Crate} (hcd : StepRel b c d) {x m : String}
    (h : CReach adj b d x m) : CReach adj b c x m := by
  induction h with
  | refl n hf => exact CReach.refl n (hcd.flag_nb (by simp) hf)
  | head s hf hs _ ih =>
      refine CReach.head s (hcd.flag_nb (by simp) hf) ?_ ih
      rw [hcd.2.1] at hs
      exact hs

theorem CReach.extend {adj : FeatMap → String → List String} {b : Bool} {c : Crate}
    {a x : String} (h : CReach adj b c a x) :
    ∀ y, y ∈ adj c.features_map x → lookupFlag c.features y = some (!b) →
      CReach adj b c a y := by
  induction h with
  | refl n hf => intro y hy hfy; exact CReach.head y hf hy (CReach.refl y hfy)
  | head s hf hs _ ih => intro y hy hfy; exact CReach.head s hf hs (ih y hy hfy)

theorem CReach.chain {adj : FeatMap → String → List String} {b : Bool}
    {c d : Crate}
    (hclosed : ∀ x, lookupFlag c.features x = some (!b) →
      lookupFlag d.features x = some b →
      ∀ y ∈ adj c.features_map x, lookupFlag d.features y = some b) :
    ∀ a m, CReach adj b c a m → lookupFlag d.features a = some b →
      lookupFlag d.features m = some b := by
  intro a m h
  induction h with
  | refl n hf => exact id
  | head s hf hs _ ih =>
      intro hda
      exact ih (hclosed _ hf hda _ hs)

theorem AdjOk.transport {adj : FeatMap → String → List String} {b : Bool}
    {c d : Crate} (h : StepRel b c d) (ha : AdjOk adj c) : AdjOk adj d := by
  intro x y hy
  rw [h.2.1] at hy
  rw [h.namesOf]
  exact ha x y hy

/-! ### Correctness of the cascade -/

theorem cascade_ok {adj : FeatMap → String → List String} {b : Bool} :
    ∀ (g : Nat) (c : Crate) (n : String), AdjOk adj c → n ∈ namesOf c →
      ∃ d, cascadeGas adj b g c n = Except.ok d := by
  intro g
  induction g with
  | zero => intro c n _ _; exact ⟨c, rfl⟩
  | succ g ih =>
      intro c n hadj hn
      have hn2 : n ∈ c.features.map Prod.fst := hn
      obtain ⟨f, hfl⟩ := mem_lookupFlag hn2
      by_cases hfb : f = b
      · rw [hfb] at hfl
        exact ⟨c, cascadeGas_already g hfl⟩
      · have hf : f = !b := by cases f <;> cases b <;> simp_all
        rw [hf] at hfl
        have hstep : ∀ a x, x ∈ adj c.features_map n →
            StepRel b (flipCrate c n b) a →
            ∃ d, cascadeGas adj b g a x = Except.ok d ∧
              StepRel b (flipCrate c n b) d := by
          intro a x hx hPa
          have hca : StepRel b c a := (StepRel.flip b c n).trans hPa
          have hxa : x ∈ namesOf a := by
            rw [hca.namesOf]
            exact hadj n x hx
          obtain ⟨d2, hd2⟩ := ih a x (AdjOk.transport hca hadj) hxa
          exact ⟨d2, hd2, hPa.trans (cascade_stepRel g a x d2 hd2)⟩
        obtain ⟨d, hd, _⟩ := foldlM_total (fun acc s => cascadeGas adj b g acc s)
          (fun a => StepRel b (flipCrate c n b) a) (adj c.features_map n)
          (flipCrate c n b) (StepRel.refl b _) hstep
        exact ⟨d, by rw [cascadeGas_flip g hfl]; exact hd⟩

theorem cascade_sets {adj : FeatMap → String → List String} {b : Bool}
    {g : Nat} (c : Crate) (n : String) (d : Crate) (hg : 1 ≤ g)
    (hn : n ∈ namesOf c) (hrun : cascadeGas adj b g c n = Except.ok d) :
    lookupFlag d.features n = some b := by
  obtain ⟨gp, rfl⟩ : ∃ k, g = k + 1 := ⟨g - 1, by omega⟩
  cases hfl : lookupFlag c.features n with
  | none => exact absurd hn (lookupFlag_eq_none.mp hfl)
  | some f =>
      by_cases hfb : f = b
      · rw [hfb] at hfl
        rw [cascadeGas_already gp hfl] at hrun
        cases hrun
        exact hfl
      · have hf : f = !b := by cases f <;> cases b <;> simp_all
        rw [hf] at hfl
        rw [cascadeGas_flip gp hfl] at hrun
        have hstep : StepRel b (flipCrate c n b) d :=
          foldlM_stepRel _ (fun a x d2 hx => cascade_stepRel gp a x d2 hx) _ _ _ hrun
        have hc2 : lookupFlag (flipCrate c n b).features n = some b :=
          lookupFlag_setFlag_self b hn
        exact hstep.flag_b hc2

theorem cascade_sound {adj : FeatMap → String → List String} {b : Bool} :
    ∀ (g : Nat) (c : Crate) (n : String) (d : Crate),
      cascadeGas adj b g c n = Except.ok d →
      ∀ m, lookupFlag d.features m = some b →
        lookupFlag c.features m = some b ∨ CReach adj b c n m := by
  intro g
  induction g with
  | zero =>
      intro c n d h m hm
      rw [cascadeGas_zero] at h
      cases h
      exact Or.inl hm
  | succ g ih =>
      intro c n d h m hm
      cases hfl : lookupFlag c.features n with
      | none => rw [cascadeGas_none g hfl] at h; exact Except.noConfusion h
      | some f =>
          by_cases hfb : f = b
          · rw [hfb] at hfl
            rw [cascadeGas_already g hfl] at h
            cases h
            exact Or.inl hm
          · have hf : f = !b := by cases f <;> cases b <;> simp_all
            rw [hf] at hfl
            rw [cascadeGas_flip g hfl] at h
            have hP := foldlM_inv _ (fun a => StepRel b c a ∧ ∀ m2,
                lookupFlag a.features m2 = some b →
                lookupFlag c.features m2 = some b ∨ CReach adj b c n m2)
              (adj c.features_map n) (flipCrate c n b) d ?_ ?_ h
            · exact hP.2 m hm
            · refine ⟨StepRel.flip b c n, ?_⟩
              intro m2 hm2
              by_cases hmn : m2 = n
              · subst hmn
                exact Or.inr (CReach.refl m2 hfl)
              · rw [flipCrate_features,
                  lookupFlag_setFlag_ne c.features b hmn] at hm2
                exact Or.inl hm2
            · intro a x d2 hx hPa hfx
              refine ⟨hPa.1.trans (cascade_stepRel g a x d2 hfx), ?_⟩
              intro m2 hm2
              rcases ih a x d2 hfx m2 hm2 with hcase | hcase
              · exact hPa.2 m2 hcase
              · exact Or.inr (CReach.head x hfl hx (CReach.anti hPa.1 hcase))

theorem cascade_closed {adj : FeatMap → String → List String} {b : Bool} :
    ∀ (g : Nat) (c : Crate) (n : String) (d : Crate),
      AdjOk adj c → offCount b c < g → cascadeGas adj b g c n = Except.ok d →
      ∀ x, lookupFlag c.features x = some (!b) →
        lookupFlag d.features x = some b →
        ∀ y ∈ adj c.features_map x, lookupFlag d.features y = some b := by
  intro g
  induction g with
  | zero => intro c n d _ h; exact absurd h (Nat.not_lt_zero _)
  | succ g ih =>
      intro c n d hadj hcnt hrun x hx hxd y hy
      cases hfl : lookupFlag c.features n with
      | none => rw [cascadeGas_none g hfl] at hrun; exact Except.noConfusion hrun
      | some f =>
          by_cases hfb : f = b
          · rw [hfb] at hfl
            rw [cascadeGas_already g hfl] at hrun
            cases hrun
            rw [hx] at hxd
            exact absurd (Option.some.inj hxd) (by simp)
          · have hf : f = !b := by cases f <;> cases b <;> simp_all
            rw [hf] at hfl
            have hpos := countOff_pos hfl
            have hoc : offCount b c = countOff b c.features := rfl
            have hglb : 1 ≤ g := by omega
            have hcnt2 : offCount b (flipCrate c n b) < g := by
              have h1 := countOff_setFlag_lt hfl
              have hoc2 : offCount b (flipCrate c n b) =
                countOff b (setFlag c.features n b) := rfl
              omega
            rw [cascadeGas_flip g hfl] at hrun
            by_cases hxn : x = n
            · subst hxn
              obtain ⟨a1, a2, h1, h2, h3⟩ :=
                foldlM_each _ (fun a xx dd hdd => cascade_stepRel g a xx dd hdd)
                  _ _ _ hrun y hy
              have hc2a1 : StepRel b c a1 := (StepRel.flip b c x).trans h1
              have hyn : y ∈ namesOf a1 := by
                rw [hc2a1.namesOf]
                exact hadj x y hy
              exact h3.flag_b (cascade_sets a1 y a2 hglb hyn h2)
            · have hP := foldlM_inv _ (fun a => StepRel b (flipCrate c n b) a ∧
                  ∀ x2, x2 ≠ n → lookupFlag c.features x2 = some (!b) →
                    lookupFlag a.features x2 = some b →
                    ∀ y2 ∈ adj c.features_map x2,
                      lookupFlag a.features y2 = some b)
                (adj c.features_map n) (flipCrate c n b) d ?_ ?_ hrun
              · exact hP.2 x hxn hx hxd y hy
              · refine ⟨StepRel.refl b _, ?_⟩
                intro x2 hx2n hcx2 hax2 y2 hy2
                rw [flipCrate_features,
                  lookupFlag_setFlag_ne c.features b hx2n, hcx2] at hax2
                exact absurd (Option.some.inj hax2) (by simp)
              · intro a s d2 hs hPa hfx
                refine ⟨hPa.1.trans (cascade_stepRel g a s d2 hfx), ?_⟩
                intro x2 hx2n hcx2 hdx2 y2 hy2
                have hca : StepRel b c a := (StepRel.flip b c n).trans hPa.1
                cases hax2 : lookupFlag a.features x2 with
                | none =>
                    have hmem : x2 ∈ namesOf c := mem_of_lookupFlag hcx2
                    rw [← hca.namesOf] at hmem
                    obtain ⟨bb, hbb⟩ := mem_lookupFlag hmem
                    rw [hax2] at hbb
                    exact Option.noConfusion hbb
                | some bb =>
                    by_cases hbbb : bb = b
                    · rw [hbbb] at hax2
                      exact (cascade_stepRel g a s d2 hfx).flag_b
                        (hPa.2 x2 hx2n hcx2 hax2 y2 hy2)
                    · have hbnb : bb = !b := by cases bb <;> cases b <;> simp_all
                      rw [hbnb] at hax2
                      have hy2a : y2 ∈ adj a.features_map x2 := by
                        rw [hca.2.1]
                        exact hy2
                      have hcnta : offCount b a < g := by
                        have := hPa.1.offCount_le
                        omega
                      exact ih a s d2 (AdjOk.transport hca hadj) hcnta hfx
                        x2 hax2 hdx2 y2 hy2a

theorem cascade_complete {adj : FeatMap → String → List String} {b : Bool}
    {g : Nat} {c : Crate} {n : String} {d : Crate}
    (hadj : AdjOk adj c) (hcnt : offCount b c < g)
    (hrun : cascadeGas adj b g c n = Except.ok d) :
    ∀ m, CReach adj b c n m → lookupFlag d.features m = some b := by
  intro m h
  have hfl : lookupFlag c.features n = some (!b) := h.flag_start
  have hn : n ∈ namesOf c := mem_of_lookupFlag hfl
  have hg : 1 ≤ g := by omega
  exact CReach.chain (cascade_closed g c n d hadj hcnt hrun) n m h
    (cascade_sets c n d hg hn hrun)

theorem cascade_master {adj : FeatMap → String → List String} {b : Bool}
    {c : Crate} {n : String} {g : Nat}
    (hadj : AdjOk adj c) (hn : n ∈ namesOf c) (hg : offCount b c < g) :
    ∃ d, cascadeGas adj b g c n = Except.ok d ∧ StepRel b c d ∧
      ∀ m, lookupFlag d.features m = some b ↔
        (lookupFlag c.features m = some b ∨ CReach adj b c n m) := by
  obtain ⟨d, hd⟩ := cascade_ok g c n hadj hn
  refine ⟨d, hd, cascade_stepRel g c n d hd,
    fun m => ⟨cascade_sound g c n d hd m, ?_⟩⟩
  intro hcase
  rcases hcase with hcase | hcase
  · exact (cascade_stepRel g c n d hd).flag_b hcase
  · exact cascade_complete hadj hg hd m hcase

/-! ### Bridging lemmas between plain reachability and cascade reachability -/

theorem Consistent.flag {c : Crate} (hcons : Consistent c) {x y : String}
    (hx : lookupFlag c.features x = some true)
    (hy : y ∈ subsOfMap c.features_map x) :
    lookupFlag c.features y = some true :=
  hcons (x, true) (lookupFlag_mem hx) rfl y hy

theorem Reach.flag_true {c : Crate} (hcons : Consistent c) :
    ∀ {a m : String}, Reach c.features_map a m →
      lookupFlag c.features a = some true → lookupFlag c.features m = some true := by
  intro a m h
  induction h with
  | refl n => exact id
  | head s hs _ ih => intro ha; exact ih (hcons.flag ha hs)

theorem Reach.snoc {m : FeatMap} {a x : String} (h : Reach m a x) :
    ∀ y, y ∈ subsOfMap m x → Reach m a y := by
  induction h with
  | refl n => intro y hy; exact Reach.head y hy (Reach.refl y)
  | head s hs _ ih => intro y hy; exact Reach.head s hs (ih y hy)

theorem lookupList_mem {m : FeatMap} {n : String} {l : List String}
    (h : lookupList m n = some l) : (n, l) ∈ m := by
  induction m with
  | nil => exact absurd h (by simp [lookupList])
  | cons p rest ih =>
      rw [lookupList] at h
      split at h
      · next heq =>
          cases h
          exact heq ▸ List.mem_cons_self _ _
      · exact List.mem_cons_of_mem _ (ih h)

theorem lookupList_eq_of_nodup {m : FeatMap} {n : String} {l : List String}
    (hnod : (m.map Prod.fst).Nodup) (hm : (n, l) ∈ m) :
    lookupList m n = some l := by
  induction m with
  | nil => exact absurd hm (List.not_mem_nil _)
  | cons p rest ih =>
      rw [List.map_cons, List.nodup_cons] at hnod
      rcases List.mem_cons.mp hm with rfl | hm2
      · rw [lookupList, if_pos rfl]
      · rw [lookupList]
        by_cases heq : p.1 = n
        · exfalso
          apply hnod.1
          rw [heq]
          exact List.mem_map.mpr ⟨(n, l), hm2, rfl⟩
        · rw [if_neg heq]
          exact ih hnod.2 hm2

theorem mem_dependentsOfMap {m : FeatMap} {x y : String} :
    y ∈ dependentsOfMap m x ↔ ∃ l, (y, l) ∈ m ∧ x ∈ l := by
  simp only [dependentsOfMap, List.mem_map, List.mem_filter]
  constructor
  · rintro ⟨p, ⟨hp, hc⟩, rfl⟩
    exact ⟨p.2, hp, by simpa using hc⟩
  · rintro ⟨l, hl, hx⟩
    exact ⟨(y, l), ⟨hl, by simpa using hx⟩, rfl⟩

theorem mem_dependents_of_mem_subs {m : FeatMap} {x s : String}
    (h : s ∈ subsOfMap m x) : x ∈ dependentsOfMap m s := by
  simp only [subsOfMap] at h
  cases hl : lookupList m x with
  | none => rw [hl] at h; exact absurd h (List.not_mem_nil s)
  | some l =>
      rw [hl] at h
      exact mem_dependentsOfMap.mpr ⟨l, lookupList_mem hl, h⟩

theorem mem_subs_of_mem_dependents {m : FeatMap} {x y : String}
    (hnod : (m.map Prod.fst).Nodup) (h : y ∈ dependentsOfMap m x) :
    x ∈ subsOfMap m y := by
  obtain ⟨l, hl, hx⟩ := mem_dependentsOfMap.mp h
  rw [subsOfMap, lookupList_eq_of_nodup hnod hl]
  exact hx

theorem reach_enable {c : Crate} (hcons : Consistent c)
    (hadj : AdjOk subsOfMap c) :
    ∀ a m, Reach c.features_map a m → a ∈ namesOf c →
      lookupFlag c.features m = some true ∨ CReach subsOfMap true c a m := by
  intro a m h
  induction h with
  | refl n =>
      intro hn
      obtain ⟨f, hf⟩ := mem_lookupFlag hn
      cases f with
      | true => exact Or.inl hf
      | false => exact Or.inr (CReach.refl n hf)
  | head s hs hrest ih =>
      next a2 m2 =>
        intro ha
        obtain ⟨fa, hfa⟩ := mem_lookupFlag ha
        cases fa with
        | true => exact Or.inl (hrest.flag_true hcons (hcons.flag hfa hs))
        | false =>
            rcases ih (hadj a2 s hs) with hcase | hcase
            · exact Or.inl hcase
            · exact Or.inr (CReach.head s hfa hs hcase)

theorem reach_disable {c : Crate} (hcons : Consistent c) :
    ∀ m f, Reach c.features_map m f → lookupFlag c.features m = some true →
      CReach dependentsOfMap false c f m := by
  intro m f h
  induction h with
  | refl n => intro hn; exact CReach.refl n hn
  | @head a2 m2 s hs hrest ih =>
      intro ha
      have hsf : lookupFlag c.features s = some true := hcons.flag ha hs
      exact (ih hsf).extend a2 (mem_dependents_of_mem_subs hs) ha

theorem creach_subs_to_reach {c : Crate} {f m : String}
    (h : CReach subsOfMap true c f m) : Reach c.features_map f m := by
  induction h with
  | refl n _ => exact Reach.refl n
  | head s _ hs _ ih => exact Reach.head s hs ih

theorem creach_deps_to_reach {c : Crate}
    (hnod : (c.features_map.map Prod.fst).Nodup) {f m : String}
    (h : CReach dependentsOfMap false c f m) : Reach c.features_map m f := by
  induction h with
  | refl n _ => exact Reach.refl n
  | @head a2 m2 s hfa hs hrest ih =>
      exact ih.snoc a2 (mem_subs_of_mem_dependents hnod hs)

theorem stepRel_flag_eq {b : Bool} {c d : Crate} (h : StepRel b c d) {m : String}
    (hiff : lookupFlag d.features m = some b ↔ lookupFlag c.features m = some b) :
    lookupFlag d.features m = lookupFlag c.features m := by
  cases hc : lookupFlag c.features m with
  | none =>
      have hmem := lookupFlag_eq_none.mp hc
      rw [h.2.2.2.names] at hmem
      exact lookupFlag_eq_none.mpr hmem
  | some x =>
      by_cases hx : x = b
      · rw [hx] at hc ⊢
        exact hiff.mpr hc
      · have hmem : m ∈ d.features.map Prod.fst := by
          rw [← h.2.2.2.names]
          exact mem_of_lookupFlag hc
        obtain ⟨y, hy⟩ := mem_lookupFlag hmem
        rw [hy]
        by_cases hyb : y = b
        · rw [hyb] at hy
          rw [hiff.mp hy] at hc
          cases hc
          exact absurd rfl hx
        · have := h.2.2.2.lookup_nb hyb hy
          rw [this] at hc
          exact hc

theorem WFCrate.adjOk_subs {c : Crate} (hwf : WFCrate c) : AdjOk subsOfMap c := by
  intro x y hy
  simp only [subsOfMap] at hy
  cases hl : lookupList c.features_map x with
  | none => rw [hl] at hy; exact absurd hy (List.not_mem_nil y)
  | some l =>
      rw [hl] at hy
      exact (hwf.2.2 (x, l) (lookupList_mem hl)).2 y hy

theorem WFCrate.adjOk_deps {c : Crate} (hwf : WFCrate c) :
    AdjOk dependentsOfMap c := by
  intro x y hy
  obtain ⟨l, hl, _⟩ := mem_dependentsOfMap.mp hy
  exact (hwf.2.2 (y, l) hl).1

theorem foldlM_id (f : Crate → String → Except String Crate) (l : List String)
    (a : Crate) (h : ∀ x ∈ l, f a x = Except.ok a) :
    List.foldlM f a l = Except.ok a := by
  induction l with
  | nil => rfl
  | cons x xs ih =>
      rw [foldlM_except_cons, h x (List.mem_cons_self x xs), except_bind_ok]
      exact ih fun y hy => h y (List.mem_cons_of_mem x hy)

/-! ### Claim theorems -/

/-- C2: Enable closure postcondition.  For every feature graph of the data
model (well-formed, satisfying the enabled-closure invariant of spec section
3) and every feature name `f` present in it, after `Enable(f)` the feature
`f` and every feature reachable from `f` along `implies` edges is enabled,
and every feature outside that closure keeps its previous enabled flag. -/
theorem enable_closure_postcondition (c : Crate) (f : String)
    (hwf : WFCrate c) (hcons : Consistent c) (hf : f ∈ namesOf c) :
    ∃ d, enable_feature_usage c f = Except.ok d ∧
      (∀ m, Reach c.features_map f m → flagOf d m = some true) ∧
      (∀ m, ¬ Reach c.features_map f m → flagOf d m = flagOf c m) := by
  obtain ⟨d, hd, hrel, hiff⟩ :=
    cascade_master hwf.adjOk_subs hf (Nat.lt_succ_self (offCount true c))
  refine ⟨d, hd, ?_, ?_⟩
  · intro m hm
    rcases reach_enable hcons hwf.adjOk_subs f m hm hf with hcase | hcase
    · exact (hiff m).mpr (Or.inl hcase)
    · exact (hiff m).mpr (Or.inr hcase)
  · intro m hm
    apply stepRel_flag_eq hrel
    constructor
    · intro hdm
      rcases (hiff m).mp hdm with h1 | h1
      · exact h1
      · exact absurd (creach_subs_to_reach h1) hm
    · intro hcm
      exact (hiff m).mpr (Or.inl hcm)

/-- Witness for C2 on a concrete graph: `a` implies `b`, both disabled. -/
theorem enable_closure_postcondition_witness :
    WFCrate witnessCrate ∧ Consistent witnessCrate ∧
      "a" ∈ namesOf witnessCrate ∧
      ∃ d, enable_feature_usage witnessCrate "a" = Except.ok d ∧
        (∀ m, Reach witnessCrate.features_map "a" m → flagOf d m = some true) ∧
        (∀ m, ¬ Reach witnessCrate.features_map "a" m →
          flagOf d m = flagOf witnessCrate m) :=
  ⟨by decide, by decide, by decide,
    enable_closure_postcondition witnessCrate "a" (by decide) (by decide)
      (by decide)⟩

/-- C3: Disable closure postcondition.  For every feature graph of the data
model and every feature name `f` present in it, after `Disable(f)` the
feature `f` and every feature from which `f` is reachable along `implies`
edges (its transitive dependents) is disabled, and every feature whose
implication closure does not contain `f` keeps its previous enabled flag. -/
theorem disable_closure_postcondition (c : Crate) (f : String)
    (hwf : WFCrate c) (hcons : Consistent c) (hf : f ∈ namesOf c) :
    ∃ d, disable_feature_usage c f = Except.ok d ∧
      (∀ m, Reach c.features_map m f → flagOf d m = some false) ∧
      (∀ m, ¬ Reach c.features_map m f → flagOf d m = flagOf c m) := by
  obtain ⟨d, hd, hrel, hiff⟩ :=
    cascade_master hwf.adjOk_deps hf (Nat.lt_succ_self (offCount false c))
  refine ⟨d, hd, ?_, ?_⟩
  · intro m hm
    have hmem : m ∈ namesOf c := by
      cases hm with
      | refl _ => exact hf
      | head s hs _ =>
          cases hl : lookupList c.features_map m with
          | none => rw [subsOfMap, hl] at hs; exact absurd hs (List.not_mem_nil s)
          | some l => exact (hwf.2.2 (m, l) (lookupList_mem hl)).1
    obtain ⟨fm, hfm⟩ := mem_lookupFlag hmem
    cases fm with
    | false => exact (hiff m).mpr (Or.inl hfm)
    | true => exact (hiff m).mpr (Or.inr (reach_disable hcons m f hm hfm))
  · intro m hm
    apply stepRel_flag_eq hrel
    constructor
    · intro hdm
      rcases (hiff m).mp hdm with h1 | h1
      · exact h1
      · exact absurd (creach_deps_to_reach hwf.2.1 h1) hm
    · intro hcm
      exact (hiff m).mpr (Or.inl hcm)

/-- Witness for C3 on a concrete graph: `g` implies `f`, both enabled. -/
theorem disable_closure_postcondition_witness :
    WFCrate c1crate ∧ Consistent c1crate ∧ "f" ∈ namesOf c1crate ∧
      ∃ d, disable_feature_usage c1crate "f" = Except.ok d ∧
        (∀ m, Reach c1crate.features_map m "f" → flagOf d m = some false) ∧
        (∀ m, ¬ Reach c1crate.features_map m "f" →
          flagOf d m = flagOf c1crate m) :=
  ⟨by decide, by decide, by decide,
    disable_closure_postcondition c1crate "f" (by decide) (by decide)
      (by decide)⟩

/-- C8: UnknownFeature raises-iff.  On a well-formed graph,
`enable_feature_usage` and `disable_feature_usage` succeed exactly when the
name is a node; for an absent name both return the Rust panic message as an
error, raised before any mutation, so failure leaves the graph unchanged. -/
theorem unknown_feature_iff (c : Crate) (n : String) (hwf : WFCrate c) :
    ((enable_feature_usage c n).isOk = true ↔ n ∈ namesOf c) ∧
    ((disable_feature_usage c n).isOk = true ↔ n ∈ namesOf c) ∧
    (n ∉ namesOf c →
      enable_feature_usage c n =
        Except.error ("feature named " ++ n ++ " not found") ∧
      disable_feature_usage c n =
        Except.error ("feature named " ++ n ++ " not found")) := by
  have herr : n ∉ namesOf c →
      enable_feature_usage c n =
        Except.error ("feature named " ++ n ++ " not found") ∧
      disable_feature_usage c n =
        Except.error ("feature named " ++ n ++ " not found") := by
    intro hn
    have hfl : lookupFlag c.features n = none := lookupFlag_eq_none.mpr hn
    exact ⟨cascadeGas_none (offCount true c) hfl,
      cascadeGas_none (offCount false c) hfl⟩
  refine ⟨⟨?_, ?_⟩, ⟨?_, ?_⟩, herr⟩
  · intro hok
    by_contra hn
    rw [(herr hn).1] at hok
    simp [Except.isOk, Except.toBool] at hok
  · intro hn
    obtain ⟨d, hd⟩ :=
      cascade_ok (offCount true c + 1) c n hwf.adjOk_subs hn
    show (cascadeGas subsOfMap true (offCount true c + 1) c n).isOk = true
    rw [hd]
    rfl
  · intro hok
    by_contra hn
    rw [(herr hn).2] at hok
    simp [Except.isOk, Except.toBool] at hok
  · intro hn
    obtain ⟨d, hd⟩ :=
      cascade_ok (offCount false c + 1) c n hwf.adjOk_deps hn
    show (cascadeGas dependentsOfMap false (offCount false c + 1) c n).isOk = true
    rw [hd]
    rfl

/-- Witness for C8: on the two-node graph, `a` is present (both operations
succeed) and `zzz` is absent (both fail with the panic message). -/
theorem unknown_feature_iff_witness :
    WFCrate witnessCrate ∧
      ((enable_feature_usage witnessCrate "a").isOk = true ↔
        "a" ∈ namesOf witnessCrate) ∧
      ("zzz" ∉ namesOf witnessCrate →
        enable_feature_usage witnessCrate "zzz" =
          Except.error ("feature named " ++ "zzz" ++ " not found") ∧
        disable_feature_usage witnessCrate "zzz" =
          Except.error ("feature named " ++ "zzz" ++ " not found")) :=
  ⟨by decide, (unknown_feature_iff witnessCrate "a" (by decide)).1,
    (unknown_feature_iff witnessCrate "zzz" (by decide)).2.2⟩

/-- C9: termination on cyclic graphs.  For every crate (no acyclicity or
well-formedness assumption) and any fuel beyond the number of features not
yet in the target state, `cascadeGas` computes the same result as the
embedded `enable_feature_usage` / `disable_feature_usage`: the recursion
reaches its fixpoint within the definitional fuel because each recursive
call happens only after the already-in-target-state guard has let one more
flag move to the target, so the embedded functions are total. -/
theorem cascade_gas_stability (c : Crate) (n : String) (g : Nat)
    (h1 : offCount true c < g) (h2 : offCount false c < g) :
    cascadeGas subsOfMap true g c n = enable_feature_usage c n ∧
    cascadeGas dependentsOfMap false g c n = disable_feature_usage c n :=
  ⟨cascade_stable (offCount true c) c n g (offCount true c + 1)
      (Nat.le_refl _) h1 (Nat.lt_succ_self _),
    cascade_stable (offCount false c) c n g (offCount false c + 1)
      (Nat.le_refl _) h2 (Nat.lt_succ_self _)⟩

/-- Witness for C9 on the cyclic graph (`a` and `b` imply each other). -/
theorem cascade_gas_stability_witness :
    offCount true cyclicCrate < 9 ∧ offCount false cyclicCrate < 9 ∧
      (cascadeGas subsOfMap true 9 cyclicCrate "a" =
        enable_feature_usage cyclicCrate "a" ∧
      cascadeGas dependentsOfMap false 9 cyclicCrate "a" =
        disable_feature_usage cyclicCrate "a") :=
  ⟨by decide, by decide,
    cascade_gas_stability cyclicCrate "a" 9 (by decide) (by decide)⟩

/-- C5 counterexample: in the graph `f → g` with both features disabled, `f`
has no dependents, yet `Enable(f)` then `Disable(f)` leaves `g` enabled
(enabled set `["g"]`), not the empty pre-Enable enabled set: the disable
cascade runs over dependents only and never re-disables the implies closure
that the enable turned on. -/
theorem round_trip_counterexample :
    ((enable_feature_usage c5crate "f").bind
        (fun d => disable_feature_usage d "f")).map get_all_enabled_features =
      Except.ok ["g"] ∧
    get_all_enabled_features c5crate = [] ∧
    (∀ p ∈ c5crate.features_map, "f" ∉ p.2) := by
  decide

/-- C5 amended: for a feature `f` with no dependents that is disabled and
whose `implies` list holds only enabled features, `Enable(f)` then
`Disable(f)` restores exactly the pre-Enable state. -/
theorem round_trip_amended (c : Crate) (f : String)
    (hflag : flagOf c f = some false)
    (hsubs : ∀ s ∈ subsOfMap c.features_map f, flagOf c s = some true)
    (hnodep : ∀ p ∈ c.features_map, f ∉ p.2) :
    (enable_feature_usage c f).bind (fun d => disable_feature_usage d f) =
      Except.ok c := by
  have hfl : lookupFlag c.features f = some (!true) := hflag
  have hmem : f ∈ c.features.map Prod.fst := mem_of_lookupFlag hflag
  have hpos : 1 ≤ countOff true c.features := countOff_pos hfl
  obtain ⟨gp, hgp⟩ : ∃ k, offCount true c = k + 1 :=
    ⟨offCount true c - 1, by
      have hoc : offCount true c = countOff true c.features := rfl
      omega⟩
  have hen : enable_feature_usage c f = Except.ok (flipCrate c f true) := by
    have hflip : enable_feature_usage c f =
        List.foldlM
          (fun acc s => cascadeGas subsOfMap true (offCount true c) acc s)
          (flipCrate c f true) (subsOfMap c.features_map f) :=
      cascadeGas_flip (offCount true c) hfl
    rw [hflip]
    apply foldlM_id
    intro s hs
    have hsflag : lookupFlag (flipCrate c f true).features s = some true := by
      by_cases hsf : s = f
      · rw [hsf, flipCrate_features]
        exact lookupFlag_setFlag_self true hmem
      · rw [flipCrate_features, lookupFlag_setFlag_ne c.features true hsf]
        exact hsubs s hs
    rw [hgp]
    exact cascadeGas_already gp hsflag
  rw [hen, except_bind_ok]
  have hffl : lookupFlag (flipCrate c f true).features f = some (!false) := by
    rw [flipCrate_features]
    exact lookupFlag_setFlag_self true hmem
  have hdeps : dependentsOfMap (flipCrate c f true).features_map f = [] := by
    have hsame : (flipCrate c f true).features_map = c.features_map := rfl
    rw [hsame, dependentsOfMap]
    have hnil : c.features_map.filter (fun p => p.2.contains f) = [] := by
      rw [List.filter_eq_nil_iff]
      intro p hp
      simpa using hnodep p hp
    rw [hnil]
    rfl
  have hdis : disable_feature_usage (flipCrate c f true) f =
      Except.ok (flipCrate (flipCrate c f true) f false) := by
    have h2 : disable_feature_usage (flipCrate c f true) f =
        List.foldlM
          (fun acc s => cascadeGas dependentsOfMap false
            (offCount false (flipCrate c f true)) acc s)
          (flipCrate (flipCrate c f true) f false)
          (dependentsOfMap (flipCrate c f true).features_map f) :=
      cascadeGas_flip (offCount false (flipCrate c f true)) hffl
    rw [h2, hdeps, foldlM_except_nil]
  rw [hdis]
  have hback : flipCrate (flipCrate c f true) f false = c := by
    show ({ c with
      features := setFlag (setFlag c.features f true) f false } : Crate) = c
    rw [setFlag_setFlag hflag true]
  rw [hback]

/-- Witness for C5 amended: `f → g`, `f` disabled, `g` enabled. -/
theorem round_trip_amended_witness :
    flagOf c5witnessCrate "f" = some false ∧
      (∀ s ∈ subsOfMap c5witnessCrate.features_map "f",
        flagOf c5witnessCrate s = some true) ∧
      (∀ p ∈ c5witnessCrate.features_map, "f" ∉ p.2) ∧
      (enable_feature_usage c5witnessCrate "f").bind
        (fun d => disable_feature_usage d "f") = Except.ok c5witnessCrate :=
  ⟨by decide, by decide, by decide,
    round_trip_amended c5witnessCrate "f" (by decide) (by decide) (by decide)⟩

/-- C4 counterexample: in Scenario A (`default → [a]`, `a → [b]`, `c`,
default = `[a]`, initial enabled `{a, b}`), `Enable("c")` then
`Disable("a")` yields the enabled set `["b", "c"]`, not `["c"]`: `b` is not
a dependent of `a`, so the disable cascade never reaches it. -/
theorem scenarioA_counterexample :
    scenarioAStep2.map get_all_enabled_features = Except.ok ["b", "c"] ∧
    Except.ok ["b", "c"] ≠ (Except.ok ["c"] : Except String (List String)) := by
  decide

/-- C4 amended: Scenario A with the correct final set.  Initial enabled set
is `{a, b}`; `Enable("c")` yields `{a, b, c}`; `Disable("a")` yields
`{b, c}` (only dependents of `a` cascade, and it has none), and
`UsesDefaultProfile()` becomes false. -/
theorem scenarioA_amended :
    get_all_enabled_features scenarioACrate = ["a", "b"] ∧
    uses_default scenarioACrate = true ∧
    scenarioAStep1.map get_all_enabled_features = Except.ok ["a", "b", "c"] ∧
    scenarioAStep2.map get_all_enabled_features = Except.ok ["b", "c"] ∧
    scenarioAStep2.map uses_default = Except.ok false := by
  decide

/-- C1 evaluated at the failing input: dependency with features `f`, `g`
both enabled, `g` ignore-listed and implying `f`.  The candidate list is
`["f"]`; the trial disables `f`, the cascade disables the ignored `g`, and
the restore loop re-enables only the candidate `f`, so the graph does not
return to the baseline: `g` stays disabled. -/
theorem prune_restore_not_baseline :
    candidatesOf c1crate ["g"] = ["f"] ∧
    flagOf c1crate "g" = some true ∧
    pruneTrial ["f"] c1crate "f" =
      Except.ok { c1crate with features := [("f", true), ("g", false)] } ∧
    (pruneTrial ["f"] c1crate "f").map (fun d => flagOf d "g") =
      Except.ok (some false) := by
  decide

/-- C7 evaluated at the failing input: the dry run over the same dependency
(`g` ignored, `g → f`, both enabled) finishes with the last restore's state
persisted, whose serialization drops `g` from the feature list, so the
persisted manifest content differs from its pre-run content. -/
theorem dry_run_changes_manifest :
    write_dep c1crate = DepToml.table "1.0.0" ["f", "g"] none ∧
    dryRunFinalToml c1crate ["g"] =
      Except.ok (DepToml.table "1.0.0" ["f"] none) ∧
    DepToml.table "1.0.0" ["f"] none ≠ DepToml.table "1.0.0" ["f", "g"] none := by
  decide

/-- C6: persist format.  `write_dep` writes a bare version string exactly
when `uses_default` holds and `get_enabled_features` is empty; otherwise it
writes the version with the `get_enabled_features` list and an explicit
default-features flag exactly when `uses_default` is false; and
`get_enabled_features` filters default names out of the enabled names
exactly when `uses_default` holds. -/
theorem write_dep_format (c : Crate) :
    (write_dep c = DepToml.bare (get_version c) ↔
      uses_default c = true ∧ get_enabled_features c = []) ∧
    (¬(uses_default c = true ∧ get_enabled_features c = []) →
      write_dep c = DepToml.table (get_version c) (get_enabled_features c)
        (if uses_default c then none else some false)) ∧
    get_enabled_features c = (get_all_enabled_features c).filter
      (fun n => !(uses_default c && c.default_features.contains n)) := by
  refine ⟨?_, ?_, ?_⟩
  · by_cases hud : uses_default c
    · by_cases hemp : get_enabled_features c = []
      · simp [write_dep, hud, hemp]
      · simp [write_dep, hud, hemp]
    · simp [write_dep, hud]
  · intro hnot
    by_cases hud : uses_default c
    · have hemp : ¬get_enabled_features c = [] := fun h => hnot ⟨hud, h⟩
      simp [write_dep, hud, hemp]
    · simp [write_dep, hud]
  · by_cases hud : uses_default c
    · simp [get_enabled_features, get_all_enabled_features, hud]
    · simp [get_enabled_features, get_all_enabled_features, hud]

/-- Witness for C6 at a concrete dependency (both features enabled, no
defaults: the table branch with no explicit flag). -/
theorem write_dep_format_witness :
    (write_dep c1crate = DepToml.bare (get_version c1crate) ↔
      uses_default c1crate = true ∧ get_enabled_features c1crate = []) ∧
    (¬(uses_default c1crate = true ∧ get_enabled_features c1crate = []) →
      write_dep c1crate = DepToml.table (get_version c1crate)
        (get_enabled_features c1crate)
        (if uses_default c1crate then none else some false)) ∧
    get_enabled_features c1crate = (get_all_enabled_features c1crate).filter
      (fun n => !(uses_default c1crate &&
        c1crate.default_features.contains n)) :=
  write_dep_format c1crate

/-! ### Crate::new construction lemmas (for C10) -/

theorem crateNewStep_foldl (ef : List String) (hd : Bool) (dfl : List String) :
    ∀ (l : FeatList) (c : Crate),
      (List.foldl (crateNewStep ef hd dfl) c l).features_map = c.features_map ∧
      namesOf (List.foldl (crateNewStep ef hd dfl) c l) = namesOf c := by
  intro l
  induction l with
  | nil => intro c; exact ⟨rfl, rfl⟩
  | cons p ps ih =>
      intro c
      rw [List.foldl_cons]
      have hstep : (crateNewStep ef hd dfl c p).features_map = c.features_map ∧
          namesOf (crateNewStep ef hd dfl c p) = namesOf c := by
        rw [crateNewStep]
        split
        · cases hen : enable_feature_usage c p.1 with
          | ok c2 =>
              have hr := cascade_stepRel (offCount true c + 1) c p.1 c2 hen
              exact ⟨hr.2.1, hr.namesOf⟩
          | error e => exact ⟨rfl, rfl⟩
        · exact ⟨rfl, rfl⟩
      obtain ⟨h1, h2⟩ := ih (crateNewStep ef hd dfl c p)
      exact ⟨h1.trans hstep.1, h2.trans hstep.2⟩

theorem crateNew_features_map (v : Version) (ef : List String) (hd : Bool) :
    (Crate.new v ef hd).features_map = buildFeaturesMap v.features :=
  (crateNewStep_foldl ef hd ((lookupList v.features "default").getD [])
    (dedupAdj (sortFeat ((lookupList v.features "default").getD [])
      (featuresSeed (buildFeaturesMap v.features) v.dependencies)))
    { version := v, features_map := buildFeaturesMap v.features,
      features := dedupAdj (sortFeat ((lookupList v.features "default").getD [])
        (featuresSeed (buildFeaturesMap v.features) v.dependencies)),
      default_features := (lookupList v.features "default").getD [] }).1

theorem crateNew_namesOf (v : Version) (ef : List String) (hd : Bool) :
    namesOf (Crate.new v ef hd) =
      (dedupAdj (sortFeat ((lookupList v.features "default").getD [])
        (featuresSeed (buildFeaturesMap v.features) v.dependencies))).map
          Prod.fst :=
  (crateNewStep_foldl ef hd ((lookupList v.features "default").getD [])
    (dedupAdj (sortFeat ((lookupList v.features "default").getD [])
      (featuresSeed (buildFeaturesMap v.features) v.dependencies)))
    { version := v, features_map := buildFeaturesMap v.features,
      features := dedupAdj (sortFeat ((lookupList v.features "default").getD [])
        (featuresSeed (buildFeaturesMap v.features) v.dependencies)),
      default_features := (lookupList v.features "default").getD [] }).2

theorem mem_dedupAdj : ∀ (l : FeatList) (x : String × Bool),
    x ∈ dedupAdj l → x ∈ l := by
  intro l
  induction l with
  | nil => intro x h; exact absurd h (by simp [dedupAdj])
  | cons a rest ih =>
      cases rest with
      | nil => intro x h; simpa [dedupAdj] using h
      | cons b rest2 =>
          intro x h
          rw [dedupAdj] at h
          split at h
          · exact List.mem_cons_of_mem _ (ih x h)
          · rcases List.mem_cons.mp h with rfl | h2
            · exact List.mem_cons_self _ _
            · exact List.mem_cons_of_mem _ (ih x h2)

theorem mem_insertFeat (dfl : List String) (y x : String × Bool) :
    ∀ (acc : FeatList), x ∈ insertFeat dfl y acc ↔ x = y ∨ x ∈ acc := by
  intro acc
  induction acc with
  | nil => simp [insertFeat]
  | cons a rest ih =>
      rw [insertFeat]
      split
      · simp [List.mem_cons]
      · rw [List.mem_cons, ih, List.mem_cons]
        tauto

theorem mem_sortFeat_aux (dfl : List String) :
    ∀ (l : FeatList) (acc : FeatList) (x : String × Bool),
      x ∈ List.foldl (fun a y => insertFeat dfl y a) acc l ↔
        x ∈ acc ∨ x ∈ l := by
  intro l
  induction l with
  | nil => intro acc x; simp
  | cons p ps ih =>
      intro acc x
      rw [List.foldl_cons, ih, mem_insertFeat, List.mem_cons]
      tauto

theorem mem_sortFeat (dfl : List String) (l : FeatList) (x : String × Bool) :
    x ∈ sortFeat dfl l ↔ x ∈ l := by
  rw [sortFeat, mem_sortFeat_aux]
  simp

/-- C10 amended: `Crate::new` never turns the manifest's `default` entry
into a map key (its list is kept only as `default_features`), so cascades
never follow a `default` edge; and when the name `default` does appear in
the node list it can only come from another feature's implication list or
from an optional dependency named `default`. -/
theorem default_never_node_amended (v : Version) (ef : List String) (hd : Bool)
    (hnode : "default" ∈ namesOf (Crate.new v ef hd)) :
    (∀ p ∈ (Crate.new v ef hd).features_map, ¬p.1 = "default") ∧
    ((∃ p ∈ (Crate.new v ef hd).features_map, "default" ∈ p.2) ∨
      ∃ d ∈ v.dependencies, d.is_optional = true ∧ d.name = "default") := by
  have hmapkeys : ∀ p ∈ buildFeaturesMap v.features, ¬p.1 = "default" := by
    intro p hp
    rw [buildFeaturesMap] at hp
    obtain ⟨q, hq, rfl⟩ := List.mem_map.mp hp
    have hq2 := (List.mem_filter.mp hq).2
    simpa using hq2
  refine ⟨by rw [crateNew_features_map]; exact hmapkeys, ?_⟩
  rw [crateNew_namesOf] at hnode
  obtain ⟨pr, hpr, hfst⟩ := List.mem_map.mp hnode
  have hseed : pr ∈ featuresSeed (buildFeaturesMap v.features) v.dependencies :=
    (mem_sortFeat _ _ pr).mp (mem_dedupAdj _ pr hpr)
  rw [featuresSeed] at hseed
  rcases List.mem_append.mp hseed with hseed | hseed
  · obtain ⟨p, hp, hmem⟩ := List.mem_flatMap.mp hseed
    rcases List.mem_cons.mp hmem with heq | hmem2
    · exfalso
      apply hmapkeys p hp
      have : pr.1 = p.1 := by rw [heq]
      rw [← this, hfst]
    · obtain ⟨s, hs, heq⟩ := List.mem_map.mp hmem2
      left
      refine ⟨p, by rw [crateNew_features_map]; exact hp, ?_⟩
      have hsd : s = "default" := by
        have : pr.1 = s := by rw [← heq]
        rw [← this, hfst]
      rw [← hsd]
      exact hs
  · obtain ⟨d2, hd2, heq⟩ := List.mem_map.mp hseed
    right
    refine ⟨d2, (List.mem_filter.mp hd2).1, ?_, ?_⟩
    · have := (List.mem_filter.mp hd2).2
      simpa using this
    · have : pr.1 = d2.name := by rw [← heq]
      rw [← this, hfst]

/-- Witness for C10 amended: feature `x` implies `default`, so `default` is
a node; the theorem yields the map-key exclusion and locates the origin. -/
theorem default_never_node_amended_witness :
    "default" ∈ namesOf (Crate.new c10witnessVersion [] false) ∧
    ((∀ p ∈ (Crate.new c10witnessVersion [] false).features_map,
        ¬p.1 = "default") ∧
      ((∃ p ∈ (Crate.new c10witnessVersion [] false).features_map,
          "default" ∈ p.2) ∨
        ∃ d ∈ c10witnessVersion.dependencies,
          d.is_optional = true ∧ d.name = "default")) :=
  ⟨by decide, default_never_node_amended c10witnessVersion [] false (by decide)⟩

/-- C10 counterexample: a version with no features but an optional
dependency named `default` produces a crate whose node list contains
`default` even though no feature's implication list mentions it, refuting
the claim that the node can only come from an implication list. -/
theorem default_node_counterexample :
    "default" ∈ namesOf (Crate.new c10version [] false) ∧
    ∀ p ∈ (Crate.new c10version [] false).features_map, "default" ∉ p.2 := by
  decide

end CargoFeaturesManager
